import Mathlib

/-!
Shallow embedding of the analytics layer of the ETH trading-agent repository
(`data_preprocessing/analytics`): the PCA engine (`pca.py`), the linearity
diagnostics (`linearity.py`) and the shared preprocessing helpers
(`common/preprocess.py`).  Numeric data is modelled over `ℚ` (exact values in
place of IEEE doubles); a missing value (`NaN` / `NaT`) is modelled as `none`
of an `Option` type.  Entries that the source computes with `numpy.sqrt` live
in `ℝ`.
-/

namespace EthAgent

/-! ### PCA engine (`analytics/pca.py`) -/

/-- Embedding of `np.cumsum` on a one-dimensional array, with an explicit
running accumulator. -/
def cumsumFrom (acc : ℚ) : List ℚ → List ℚ
  | [] => []
  | x :: xs => (acc + x) :: cumsumFrom (acc + x) xs

/-- Embedding of `np.cumsum`: entry `i` is the sum of the first `i + 1`
entries of the input. -/
def cumsum (xs : List ℚ) : List ℚ := cumsumFrom 0 xs

/-- Embedding of `np.searchsorted(a, v)` with the default `side="left"` on a
sorted (non-decreasing) array `a`, which numpy documents as the insertion
index: the number of entries of `a` that are strictly less than `v`.  The
source only applies it to `np.cumsum` of an explained-ratio array, which is
non-decreasing. -/
def searchsortedLeft (xs : List ℚ) (v : ℚ) : ℕ :=
  xs.countP (fun c => decide (c < v))

/-- Embedding of `choose_components` (`pca.py`): `0` on an empty ratio array,
otherwise `np.searchsorted(np.cumsum(ratio), threshold) + 1`. -/
def choose_components (explained_ratio : List ℚ) (threshold : ℚ) : ℕ :=
  if explained_ratio.isEmpty then 0
  else searchsortedLeft (cumsum explained_ratio) threshold + 1

/-- Embedding of the `explained_ratio` computation at the end of
`pca_decompose` (`pca.py`): `explained_variance / total if total != 0 else
explained_variance`, where `total = explained_variance.sum()`. -/
def explainedRatioOf (explained_variance : List ℚ) : List ℚ :=
  if explained_variance.sum ≠ 0
  then explained_variance.map (fun v => v / explained_variance.sum)
  else explained_variance

/-- A two-dimensional numpy array: shape plus an entry function (entries
outside the shape are irrelevant padding). -/
structure Mat where
  rows : ℕ
  cols : ℕ
  entry : ℕ → ℕ → ℚ

/-- A one-dimensional numpy array. -/
structure Vec where
  len : ℕ
  entry : ℕ → ℚ

/-- Column slice `a[:, :k]`; numpy slicing clamps `k` to the available
width. -/
def colSlice (a : Mat) (k : ℕ) : Mat :=
  ⟨a.rows, min k a.cols, a.entry⟩

/-- Row slice `a[:k, :]`; numpy slicing clamps `k` to the available
height. -/
def rowSlice (a : Mat) (k : ℕ) : Mat :=
  ⟨min k a.rows, a.cols, a.entry⟩

/-- Prefix slice `s[:k]` of a one-dimensional array. -/
def vecSlice (s : Vec) (k : ℕ) : Vec :=
  ⟨min k s.len, s.entry⟩

/-- Broadcast product `u_k * s_k`: each column `j` of `u_k` is scaled by
`s_k[j]`. -/
def scaleCols (a : Mat) (s : Vec) : Mat :=
  ⟨a.rows, a.cols, fun i j => a.entry i j * s.entry j⟩

/-- Matrix product `a @ b` (the contraction length is `a.cols`, which equals
`b.rows` whenever the source forms the product). -/
def matmul (a b : Mat) : Mat :=
  ⟨a.rows, b.cols, fun i j => ∑ t ∈ Finset.range a.cols, a.entry i t * b.entry t j⟩

/-- The all-zero matrix `np.zeros((m, n))`. -/
def zerosMat (m n : ℕ) : Mat := ⟨m, n, fun _ _ => 0⟩

/-- Embedding of `reconstruct` (`pca.py`): rank-`k` reconstruction
`(u[:, :k] * s[:k]) @ vt[:k, :]`, returning `np.zeros((u.shape[0],
vt.shape[1]))` when `k <= 0`. -/
def reconstruct (u : Mat) (s : Vec) (vt : Mat) (k : ℤ) : Mat :=
  if k ≤ 0 then zerosMat u.rows vt.cols
  else matmul (scaleCols (colSlice u k.toNat) (vecSlice s k.toNat)) (rowSlice vt k.toNat)

/-! ### Linearity diagnostics (`analytics/linearity.py`)

A pandas `DataFrame` as seen by this module: a row count, the numeric
columns (name and data; each data list has `nrows` entries, a `NaN` data
entry being `none`) and the names of the non-numeric columns.  A correlation
entry that pandas reports as `NaN` is likewise modelled as `none`. -/

structure PDF where
  nrows : ℕ
  numeric : List (String × List (Option ℚ))
  nonNumeric : List String

/-- Embedding of `DataFrame.empty`: true when either axis has length 0. -/
def PDF.isEmpty (df : PDF) : Bool :=
  df.nrows == 0 || (df.numeric.length + df.nonNumeric.length == 0)

/-- Mean of a list of observations. -/
def colMean (xs : List ℚ) : ℚ := xs.sum / xs.length

/-- Observations recentred around their mean. -/
def demean (xs : List ℚ) : List ℚ := xs.map (fun x => x - colMean xs)

/-- Sum of squared deviations of a list of observations (the numerator of
its variance). -/
def sqDev (xs : List ℚ) : ℚ := ((demean xs).map (fun d => d * d)).sum

/-- Sum of products of deviations of two equally long observation lists (the
numerator of their covariance). -/
def covDev (xs ys : List ℚ) : ℚ := ((demean xs).zipWith (fun a b => a * b) (demean ys)).sum

/-- A row of two columns survives pairwise deletion iff both entries are
observed. -/
def pairJoin : Option ℚ × Option ℚ → Option (ℚ × ℚ)
  | (some a, some b) => some (a, b)
  | _ => none

/-- The pairwise complete observations of two columns: the rows where both
entries are non-missing, as pandas `corr` selects them for each column
pair. -/
def pairObs (xs ys : List (Option ℚ)) : List (ℚ × ℚ) :=
  (xs.zip ys).filterMap pairJoin

/-- Pearson correlation of two columns as pandas `corr` computes it: moments
are taken over the pairwise complete observations; the entry is `NaN` (here
`none`) when either column has zero squared deviation on those rows (this
covers fewer than two complete rows), otherwise
`covDev / sqrt(sqDev x * sqDev y)` (the `1/(n-1)` factors cancel). -/
noncomputable def pearson (xs ys : List (Option ℚ)) : Option ℝ :=
  let a := (pairObs xs ys).map Prod.fst
  let b := (pairObs xs ys).map Prod.snd
  if sqDev a = 0 ∨ sqDev b = 0 then none
  else some ((covDev a b : ℝ) / Real.sqrt ((sqDev a : ℝ) * (sqDev b : ℝ)))

/-- The matrix `numeric.corr()` before the zero-variance override, as an
entry function over column indices. -/
noncomputable def rawCorr (cols : List (List (Option ℚ))) : ℕ → ℕ → Option ℝ :=
  fun i j => pearson (cols.getD i []) (cols.getD j [])

/-- Embedding of the check `(std == 0) | (std.isna())` selecting the invalid
columns: `std(ddof=1, skipna=True)` works on the non-missing entries; it is
`NaN` when fewer than two of them exist and `0` when they show no deviation
from their mean. -/
def invalidCol (xs : List (Option ℚ)) : Bool :=
  (xs.filterMap id).length < 2 || sqDev (xs.filterMap id) == 0

/-- One iteration of the override loop in `correlation_matrix`:
`corr.loc[col, :] = 0.0; corr.loc[:, col] = 0.0; corr.loc[col, col] = 1.0`. -/
def overrideOne (c : ℕ) (f : ℕ → ℕ → Option ℝ) : ℕ → ℕ → Option ℝ :=
  fun i j =>
    if i = c ∧ j = c then some 1
    else if i = c ∨ j = c then some 0
    else f i j

/-- The override loop `for col in invalid: ...` of `correlation_matrix`. -/
def applyOverrides (invalid : List ℕ) (f : ℕ → ℕ → Option ℝ) : ℕ → ℕ → Option ℝ :=
  invalid.foldl (fun g c => overrideOne c g) f

/-- Embedding of `correlation_matrix` (`linearity.py`, default Pearson
method): the result is the matrix size (0 for the empty `DataFrame` results)
together with the entry function.  Empty input or absence of numeric columns
yields the empty matrix; otherwise the pairwise correlations of the numeric
columns with the zero-variance override applied. -/
noncomputable def correlation_matrix (df : PDF) : ℕ × (ℕ → ℕ → Option ℝ) :=
  if df.isEmpty then (0, fun _ _ => none)
  else if df.numeric.isEmpty then (0, fun _ _ => none)
  else
    let cols := df.numeric.map Prod.snd
    let invalid := (List.range cols.length).filter (fun i => invalidCol (cols.getD i []))
    (cols.length, applyOverrides invalid (rawCorr cols))

/-- Diagonal of a matrix given as a list of rows (`np.diag`). -/
def diagOf (mat : List (List ℝ)) : List ℝ :=
  mat.mapIdx (fun i row => row.getD i 0)

/-- The matrix `df.corr().fillna(0.0).to_numpy()` used by `vif_scores`:
pairwise Pearson correlations of the numeric columns with `NaN` replaced by
`0.0`. -/
noncomputable def corrFilled (cols : List (List (Option ℚ))) : List (List ℝ) :=
  (List.range cols.length).map (fun i =>
    (List.range cols.length).map (fun j => (pearson (cols.getD i []) (cols.getD j [])).getD 0))

/-- Embedding of `vif_scores` (`linearity.py`), parametrised by the
pseudo-inverse `np.linalg.pinv` (a dense numerical routine; every
instantiation used in a theorem is constrained or concrete, and
`np.linalg.pinv` maps an `m × m` matrix to an `m × m` matrix).  The final
`pd.DataFrame({"feature": df.columns, "vif": vifs})` raises a `ValueError`
when the two arrays differ in length, modelled as `Except.error`. -/
noncomputable def vif_scores (pinv : List (List ℝ) → List (List ℝ)) (df : PDF) :
    Except String (List (String × ℝ)) :=
  if df.isEmpty then .ok []
  else
    let corr := corrFilled (df.numeric.map Prod.snd)
    let vifs := diagOf (pinv corr)
    let features := df.numeric.map Prod.fst ++ df.nonNumeric
    if features.length = vifs.length then .ok (features.zip vifs)
    else .error "All arrays must be of the same length"

/-! ### Preprocessing helpers (`analytics/common/preprocess.py`) -/

/-- A table as seen by `winsorize` and `impute_missing`: its numeric columns
(`df.select_dtypes(include=[np.number])`) and its remaining (object) columns;
a missing value is `none`. -/
structure WTable where
  numeric : List (List (Option ℚ))
  other : List (List (Option String))

/-- Linear interpolation of a sorted value list at a fractional position
`pos`: the integer part selects the lower bracketing value and the fractional
part interpolates towards the next value (numpy/pandas `interpolation=
"linear"`). -/
def interpAt (vals : List ℚ) (pos : ℚ) : ℚ :=
  let i : ℕ := (Int.floor pos).toNat
  let lo := vals.getD i 0
  let hi := vals.getD (i + 1) lo
  lo + (pos - (Int.floor pos : ℚ)) * (hi - lo)

/-- The non-missing values of a column, sorted ascending (the array
`Series.dropna().sort_values()` that quantile interpolation works on). -/
def sortedVals (col : List (Option ℚ)) : List ℚ :=
  (col.filterMap id).mergeSort (fun a b => decide (a ≤ b))

/-- Empirical quantile of a column as `Series.quantile` computes it: the
non-missing values are sorted and linearly interpolated at position
`q * (m - 1)`; `NaN` (here `none`) when no observation exists. -/
def quantile (col : List (Option ℚ)) (q : ℚ) : Option ℚ :=
  if (sortedVals col).isEmpty then none
  else some (interpAt (sortedVals col) (q * (((sortedVals col).length : ℚ) - 1)))

/-- Embedding of `Series.clip(lower, upper)` on one value: the lower bound is
applied first, then the upper bound; a missing bound (`NaN`, from an empty
column) leaves the value unchanged, and missing values pass through. -/
def clipVal (lower upper : Option ℚ) (x : ℚ) : ℚ :=
  let low := match lower with
    | some l => max x l
    | none => x
  match upper with
    | some u => min low u
    | none => low

/-- Clip a whole column to the given bounds. -/
def clipCol (lower upper : Option ℚ) (col : List (Option ℚ)) : List (Option ℚ) :=
  col.map (Option.map (clipVal lower upper))

/-- Embedding of `winsorize` (`preprocess.py`): identity when `limits <= 0`,
otherwise each numeric column is clipped, independently of the others, to its
own `[quantile(limits), quantile(1 - limits)]` range. -/
def winsorize (df : WTable) (limits : ℚ) : WTable :=
  if limits ≤ 0 then df
  else
    ⟨df.numeric.map (fun col => clipCol (quantile col limits) (quantile col (1 - limits)) col),
     df.other⟩

/-- Forward fill with an optional limit on consecutive fills: `last` is the
most recent observed value and `cnt` the number of missing entries filled
from it so far. -/
def ffillGo {α : Type} (limit : Option ℕ) : Option α → ℕ → List (Option α) → List (Option α)
  | _, _, [] => []
  | last, cnt, none :: rest =>
      let fill := match limit with
        | none => last
        | some l => if cnt < l then last else none
      fill :: ffillGo limit last (cnt + 1) rest
  | _, _, some x :: rest => some x :: ffillGo limit (some x) 0 rest

/-- Embedding of `df.ffill(limit=limit)` on one column. -/
def ffillCol {α : Type} (limit : Option ℕ) (col : List (Option α)) : List (Option α) :=
  ffillGo limit none 0 col

/-- Embedding of `df.bfill(limit=limit)` on one column: a forward fill on the
reversed column. -/
def bfillCol {α : Type} (limit : Option ℕ) (col : List (Option α)) : List (Option α) :=
  (ffillCol limit col.reverse).reverse

/-- The last observed value at or before index `i`, with its index. -/
def prevValid (col : List (Option ℚ)) (i : ℕ) : Option (ℕ × ℚ) :=
  ((List.range (i + 1)).filterMap (fun j => (col.getD j none).map (fun v => (j, v)))).getLast?

/-- The first observed value strictly after index `i`, with its index. -/
def nextValid (col : List (Option ℚ)) (i : ℕ) : Option (ℕ × ℚ) :=
  (((List.range col.length).drop (i + 1)).filterMap
    (fun j => (col.getD j none).map (fun v => (j, v)))).head?

/-- Embedding of `df.interpolate(limit=limit)` (default linear method,
forward direction) on one column: gaps after at least one observation are
filled by linear interpolation towards the next observation (or by the last
observation when none follows), at most `limit` entries per gap; leading
missing values stay missing. -/
def interpolateCol (limit : Option ℕ) (col : List (Option ℚ)) : List (Option ℚ) :=
  col.mapIdx (fun i c =>
    match c with
    | some v => some v
    | none =>
      match prevValid col i with
      | none => none
      | some (ip, vp) =>
        let withinLimit := match limit with
          | none => true
          | some l => i - ip ≤ l
        if withinLimit then
          match nextValid col i with
          | none => some vp
          | some (inx, vn) => some (vp + (vn - vp) * (((i : ℚ) - ip) / ((inx : ℚ) - ip)))
        else none)

/-- Embedding of `impute_missing` (`preprocess.py`): dispatch on the method
string; any other method string returns the input unchanged. -/
def impute_missing (df : WTable) (method : String) (limit : Option ℕ) : WTable :=
  if method = "ffill" then ⟨df.numeric.map (ffillCol limit), df.other.map (ffillCol limit)⟩
  else if method = "bfill" then ⟨df.numeric.map (bfillCol limit), df.other.map (bfillCol limit)⟩
  else if method = "interpolate" then ⟨df.numeric.map (interpolateCol limit), df.other⟩
  else df

/-! ### Timestamp normalisation and sort/dedup (`preprocess.py`)

A table as seen by `ensure_timestamp_datetime` and `sort_dedup`: the dtype
of its `timestamp` column (absent, numeric, string, or datetime) together
with the rows, each a timestamp cell paired with the rest of the row
(abstracted as `α`).  A datetime value is represented by its epoch seconds;
`NaT`/`NaN` is `none`. -/

inductive TsFrame (α : Type) : Type
  | noTs : List α → TsFrame α
  | numTs : List (Option ℚ × α) → TsFrame α
  | strTs : List (Option String × α) → TsFrame α
  | dtTs : List (Option ℚ × α) → TsFrame α

/-- Embedding of `ensure_timestamp_datetime` (`preprocess.py`), parametrised
by the datetime parser applied to strings (`pd.to_datetime(..., utc=True,
errors="coerce")`; an unparseable string becomes `NaT`).  A numeric column is
converted with `unit="s"` (the number is the epoch-second value); a datetime
column is re-parsed to itself; a table without a `timestamp` column is
returned unchanged. -/
def ensure_timestamp_datetime {α : Type} (parse : String → Option ℚ) :
    TsFrame α → TsFrame α
  | .noTs r => .noTs r
  | .numTs r => .dtTs r
  | .strTs r => .dtTs (r.map (fun p => (p.1.bind parse, p.2)))
  | .dtTs r => .dtTs r

/-- Lift an order on values to `Option` with missing values last
(`sort_values` uses `na_position="last"`). -/
def optLe {β : Type} (le : β → β → Bool) : Option β → Option β → Bool
  | some a, some b => le a b
  | some _, none => true
  | none, some _ => false
  | none, none => true

/-- Key equality as `drop_duplicates` sees it: missing values are equal to
each other. -/
def optEq {β : Type} (eq : β → β → Bool) : Option β → Option β → Bool
  | some a, some b => eq a b
  | none, none => true
  | _, _ => false

/-- Embedding of `drop_duplicates(subset=[column], keep="last")` on rows
already carrying their key: a row is kept iff no later row has an equal
key. -/
def dedupLast {γ : Type} (eq : γ → γ → Bool) : List γ → List γ
  | [] => []
  | x :: xs => if xs.any (eq x) then dedupLast eq xs else x :: dedupLast eq xs

/-- Sort rows by their key, then drop all but the last row of each key. -/
def sortDedupRows {β α : Type} (le eq : β → β → Bool) (rows : List (β × α)) :
    List (β × α) :=
  dedupLast (fun p q => eq p.1 q.1) (rows.mergeSort (fun p q => le p.1 q.1))

/-- Embedding of `sort_dedup` (`preprocess.py`): identity when no `timestamp`
column exists, otherwise sort by the timestamp key (missing last) and drop
duplicate keys keeping the last occurrence. -/
def sort_dedup {α : Type} : TsFrame α → TsFrame α
  | .noTs r => .noTs r
  | .numTs r => .numTs (sortDedupRows (optLe (fun a b => decide (a ≤ b))) (optEq (fun a b => decide (a = b))) r)
  | .strTs r => .strTs (sortDedupRows (optLe (fun a b => decide (a ≤ b))) (optEq (fun a b => decide (a = b))) r)
  | .dtTs r => .dtTs (sortDedupRows (optLe (fun a b => decide (a ≤ b))) (optEq (fun a b => decide (a = b))) r)

/-- The composite preprocessing step whose idempotence is claimed:
`ensure_timestamp_datetime` followed by `sort_dedup`. -/
def normalizeStep {α : Type} (parse : String → Option ℚ) (df : TsFrame α) : TsFrame α :=
  sort_dedup (ensure_timestamp_datetime parse df)

/-! ### Theorems -/

/-- Claim C10: `impute_missing` with any method string other than `"ffill"`,
`"bfill"` or `"interpolate"` returns the input table unchanged; the method
name is never validated and no error is raised. -/
theorem claim_C10 (df : WTable) (method : String) (limit : Option ℕ)
    (h1 : method ≠ "ffill") (h2 : method ≠ "bfill") (h3 : method ≠ "interpolate") :
    impute_missing df method limit = df := by
  simp [impute_missing, h1, h2, h3]

/-- Witness for claim C10 at the unrecognised method `"none"`. -/
theorem claim_C10_witness :
    impute_missing ⟨[[some (1 : ℚ), none]], []⟩ "none" none = ⟨[[some (1 : ℚ), none]], []⟩ :=
  claim_C10 ⟨[[some (1 : ℚ), none]], []⟩ "none" none
    (by decide) (by decide) (by decide)

/-- Claim C2: when the explained variances have a nonzero sum, the
explained-ratio array equals the variances divided by their sum and sums
exactly to 1; when the sum is zero the raw values are returned unchanged. -/
theorem claim_C2 (ev : List ℚ) :
    (ev.sum ≠ 0 →
      explainedRatioOf ev = ev.map (fun v => v / ev.sum)
      ∧ (explainedRatioOf ev).sum = 1)
    ∧ (ev.sum = 0 → explainedRatioOf ev = ev) := by
  constructor
  · intro h
    have hmap : explainedRatioOf ev = ev.map (fun v => v / ev.sum) := by
      simp [explainedRatioOf, h]
    refine ⟨hmap, ?_⟩
    rw [hmap]
    have : (ev.map (fun v => v / ev.sum)).sum = ev.sum / ev.sum := by
      simp only [div_eq_mul_inv]
      simpa using List.sum_map_mul_right ev (fun v => v) (ev.sum)⁻¹
    rw [this, div_self h]
  · intro h
    simp [explainedRatioOf, h]

/-- Witness for claim C2 at the explained variances `[2, 2]`. -/
theorem claim_C2_witness :
    explainedRatioOf [(2 : ℚ), 2] = [(2 : ℚ), 2].map (fun v => v / ([(2 : ℚ), 2]).sum)
    ∧ (explainedRatioOf [(2 : ℚ), 2]).sum = 1 :=
  (claim_C2 [(2 : ℚ), 2]).1 (by norm_num)

/-- Claim C9: `reconstruct` is total in `k` and saturates at the available
component count: for `k` at least the number `c` of components it agrees with
the full-rank reconstruction, and for `k ≤ 0` it is the all-zero matrix of
shape `(u.rows, vt.cols)`. -/
theorem claim_C9 (u : Mat) (s : Vec) (vt : Mat) (c : ℕ)
    (hu : u.cols = c) (hs : s.len = c) (hv : vt.rows = c) :
    (∀ k : ℤ, (c : ℤ) ≤ k → reconstruct u s vt k = reconstruct u s vt (c : ℤ))
    ∧ (∀ k : ℤ, k ≤ 0 → reconstruct u s vt k = zerosMat u.rows vt.cols) := by
  have hzero : ∀ k : ℤ, k ≤ 0 → reconstruct u s vt k = zerosMat u.rows vt.cols := by
    intro k hk
    simp [reconstruct, hk]
  refine ⟨?_, hzero⟩
  intro k hk
  rcases Nat.eq_zero_or_pos c with hc | hc
  · subst hc
    simp only [Nat.cast_zero]
    rcases le_or_lt k 0 with hk0 | hk0
    · rw [hzero k hk0, hzero 0 le_rfl]
    · have hknot : ¬ k ≤ 0 := not_le.mpr hk0
      rw [reconstruct, if_neg hknot, reconstruct, if_pos le_rfl]
      have hcols : (colSlice u k.toNat).cols = 0 := by
        simp [colSlice, hu]
      simp only [matmul, scaleCols, colSlice, rowSlice, vecSlice, zerosMat, hu, hv]
      simp
  · have hknot : ¬ k ≤ 0 := by omega
    have hcnot : ¬ (c : ℤ) ≤ 0 := by omega
    have htc : ((c : ℤ)).toNat = c := by omega
    have hminu : min k.toNat u.cols = u.cols := by omega
    have hmins : min k.toNat s.len = s.len := by omega
    have hminv : min k.toNat vt.rows = vt.rows := by omega
    have hminu' : min ((c : ℤ)).toNat u.cols = u.cols := by omega
    have hmins' : min ((c : ℤ)).toNat s.len = s.len := by omega
    have hminv' : min ((c : ℤ)).toNat vt.rows = vt.rows := by omega
    rw [reconstruct, if_neg hknot, reconstruct, if_neg hcnot]
    simp only [matmul, scaleCols, colSlice, rowSlice, vecSlice,
      hminu, hmins, hminv, hminu', hmins', hminv']

/-- Witness for claim C9 on a concrete one-component decomposition. -/
theorem claim_C9_witness :
    reconstruct ⟨1, 1, fun _ _ => 1⟩ ⟨1, fun _ => 1⟩ ⟨1, 1, fun _ _ => 1⟩ 5
      = reconstruct ⟨1, 1, fun _ _ => 1⟩ ⟨1, fun _ => 1⟩ ⟨1, 1, fun _ _ => 1⟩ ((1 : ℕ) : ℤ)
    ∧ reconstruct ⟨1, 1, fun _ _ => 1⟩ ⟨1, fun _ => 1⟩ ⟨1, 1, fun _ _ => 1⟩ (-1)
      = zerosMat 1 1 := by
  have h := claim_C9 ⟨1, 1, fun _ _ => 1⟩ ⟨1, fun _ => 1⟩ ⟨1, 1, fun _ _ => 1⟩ 1
    rfl rfl rfl
  exact ⟨h.1 5 (by norm_num), h.2 (-1) (by norm_num)⟩

lemma cumsumFrom_length (acc : ℚ) (xs : List ℚ) :
    (cumsumFrom acc xs).length = xs.length := by
  induction xs generalizing acc with
  | nil => rfl
  | cons x xs ih => simp [cumsumFrom, ih]

lemma le_of_mem_cumsumFrom {xs : List ℚ} (hnn : ∀ r ∈ xs, 0 ≤ r) (acc : ℚ) :
    ∀ y ∈ cumsumFrom acc xs, acc ≤ y := by
  induction xs generalizing acc with
  | nil => intro y hy; simp [cumsumFrom] at hy
  | cons x xs ih =>
    intro y hy
    have hx : 0 ≤ x := hnn x (by simp)
    rcases (by simpa [cumsumFrom] using hy : y = acc + x ∨ y ∈ cumsumFrom (acc + x) xs) with
      h | h
    · linarith
    · have := ih (fun r hr => hnn r (by simp [hr])) (acc + x) y h
      linarith

lemma cumsumFrom_sorted {xs : List ℚ} (hnn : ∀ r ∈ xs, 0 ≤ r) (acc : ℚ) :
    (cumsumFrom acc xs).Pairwise (· ≤ ·) := by
  induction xs generalizing acc with
  | nil => simp [cumsumFrom]
  | cons x xs ih =>
    have hxs : ∀ r ∈ xs, 0 ≤ r := fun r hr => hnn r (by simp [hr])
    simp only [cumsumFrom, List.pairwise_cons]
    exact ⟨le_of_mem_cumsumFrom hxs (acc + x), ih hxs (acc + x)⟩

/-- On a sorted list, the count of entries below `t` is the 0-based position
of the first entry at or above `t`: all earlier entries are below `t` and the
entry at that position (when it exists) is not. -/
lemma sorted_countP_lt (t : ℚ) :
    ∀ (l : List ℚ), l.Pairwise (· ≤ ·) →
      (∀ j, j < l.countP (fun c => decide (c < t)) → l.getD j 0 < t)
      ∧ (l.countP (fun c => decide (c < t)) < l.length →
          ¬ l.getD (l.countP (fun c => decide (c < t))) 0 < t) := by
  intro l
  induction l with
  | nil => intro _; simp
  | cons x xs ih =>
    intro hp
    rcases List.pairwise_cons.mp hp with ⟨hx, hxs⟩
    by_cases hxt : x < t
    · have hcount : (x :: xs).countP (fun c => decide (c < t))
          = xs.countP (fun c => decide (c < t)) + 1 := by
        rw [List.countP_cons_of_pos _ _ (by simpa using hxt)]
      rcases ih hxs with ⟨ih1, ih2⟩
      constructor
      · intro j hj
        rw [hcount] at hj
        match j with
        | 0 => simpa using hxt
        | j + 1 =>
          have : j < xs.countP (fun c => decide (c < t)) := by omega
          simpa using ih1 j this
      · intro hlt
        rw [hcount] at hlt ⊢
        simp only [List.length_cons] at hlt
        have : xs.countP (fun c => decide (c < t)) < xs.length := by omega
        simpa using ih2 this
    · have hz : (x :: xs).countP (fun c => decide (c < t)) = 0 := by
        rw [List.countP_cons_of_neg _ _ (by simpa using hxt)]
        rw [List.countP_eq_zero]
        intro a ha
        simp only [decide_eq_true_eq]
        exact fun h => hxt (lt_of_le_of_lt (hx a ha) h)
      rw [hz]
      exact ⟨fun j hj => absurd hj (by omega), fun _ => by simpa using hxt⟩

/-- Claim C1, amended.  For a nonnegative explained-ratio array and a
threshold in `(0, 1]`: an empty array yields 0; when some cumulative value
reaches the threshold, the result `k` is the smallest 1-based count whose
cumulative explained ratio reaches the threshold, and `k` never exceeds the
number of entries; but when no cumulative value reaches the threshold the
result is the number of entries plus one. -/
theorem claim_C1 (ratio : List ℚ) (threshold : ℚ)
    (hnn : ∀ r ∈ ratio, 0 ≤ r) (ht0 : 0 < threshold) (ht1 : threshold ≤ 1) :
    (ratio = [] → choose_components ratio threshold = 0)
    ∧ (ratio ≠ [] →
        ((∃ c ∈ cumsum ratio, threshold ≤ c) →
          choose_components ratio threshold ≤ ratio.length
          ∧ threshold ≤ (cumsum ratio).getD (choose_components ratio threshold - 1) 0
          ∧ ∀ j, j + 1 < choose_components ratio threshold →
              (cumsum ratio).getD j 0 < threshold)
        ∧ ((∀ c ∈ cumsum ratio, c < threshold) →
          choose_components ratio threshold = ratio.length + 1)) := by
  constructor
  · intro h; simp [choose_components, h]
  · intro hne
    have hlen : (cumsum ratio).length = ratio.length := cumsumFrom_length 0 ratio
    have hsorted : (cumsum ratio).Pairwise (· ≤ ·) := cumsumFrom_sorted hnn 0
    have hchoose : choose_components ratio threshold
        = (cumsum ratio).countP (fun c => decide (c < threshold)) + 1 := by
      simp [choose_components, searchsortedLeft, List.isEmpty_iff, hne]
    rcases sorted_countP_lt threshold (cumsum ratio) hsorted with ⟨hbelow, hat⟩
    constructor
    · intro ⟨c, hc, htc⟩
      have hcount : (cumsum ratio).countP (fun c => decide (c < threshold))
          < (cumsum ratio).length := by
        rcases lt_or_eq_of_le (List.countP_le_length _) with h | h
        · exact h
        · exfalso
          have := List.countP_eq_length.mp h c hc
          simp only [decide_eq_true_eq] at this
          linarith
      refine ⟨by omega, ?_, ?_⟩
      · rw [hchoose]
        simpa using not_lt.mp (hat hcount)
      · intro j hj
        rw [hchoose] at hj
        exact hbelow j (by omega)
    · intro hall
      have : (cumsum ratio).countP (fun c => decide (c < threshold))
          = (cumsum ratio).length :=
        List.countP_eq_length.mpr (fun c hc => by simpa using hall c hc)
      omega

/-- Witness for claim C1 at the ratio array `[1]` and threshold `1`. -/
theorem claim_C1_witness :
    choose_components [(1 : ℚ)] 1 ≤ ([(1 : ℚ)]).length
    ∧ (1 : ℚ) ≤ (cumsum [(1 : ℚ)]).getD (choose_components [(1 : ℚ)] 1 - 1) 0 :=
  have h := (claim_C1 [(1 : ℚ)] 1 (by norm_num) (by norm_num) (by norm_num)).2
    (by simp)
  have hex : ∃ c ∈ cumsum [(1 : ℚ)], (1 : ℚ) ≤ c := ⟨1, by norm_num [cumsum, cumsumFrom]⟩
  ⟨(h.1 hex).1, (h.1 hex).2.1⟩

/-- Counterexample to claim C1 as stated: on the all-zero explained-ratio
array `[0]` (which `pca_decompose` produces when the total variance is zero)
with threshold `1 ∈ (0, 1]`, `choose_components` returns 2, which exceeds the
number of entries of the ratio array. -/
theorem claim_C1_counterexample :
    ¬ choose_components [(0 : ℚ)] 1 ≤ ([(0 : ℚ)]).length := by
  norm_num [choose_components, searchsortedLeft, cumsum, cumsumFrom, List.countP,
    List.countP.go]

lemma exists_pos_of_sum_pos (l : List ℚ) (h : 0 < l.sum) : ∃ x ∈ l, 0 < x := by
  induction l with
  | nil => simp at h
  | cons x xs ih =>
    by_cases hx : 0 < x
    · exact ⟨x, by simp, hx⟩
    · have : 0 < xs.sum := by
        simp only [List.sum_cons] at h
        push_neg at hx
        linarith
      rcases ih this with ⟨y, hy, hy0⟩
      exact ⟨y, by simp [hy], hy0⟩

lemma all_zero_of_sum_zero {l : List ℚ} (hnn : ∀ x ∈ l, 0 ≤ x) (h : l.sum = 0) :
    ∀ x ∈ l, x = 0 := by
  induction l with
  | nil => simp
  | cons x xs ih =>
    have hx : 0 ≤ x := hnn x (by simp)
    have hxs : 0 ≤ xs.sum := List.sum_nonneg (fun r hr => hnn r (by simp [hr]))
    simp only [List.sum_cons] at h
    have hx0 : x = 0 := by linarith
    have hxsum : xs.sum = 0 := by linarith
    intro y hy
    rcases List.mem_cons.mp hy with h' | h'
    · exact h' ▸ hx0
    · exact ih (fun r hr => hnn r (by simp [hr])) hxsum y h'

/-- Counting the cumulative sums that stay below the total: for a
non-increasing, nonnegative array with positive sum, the cumulative array
stays strictly below `acc + sum` exactly up to (one before) the last positive
entry. -/
lemma countLt_cumsumFrom (xs : List ℚ) (hnn : ∀ r ∈ xs, 0 ≤ r)
    (hdesc : xs.Pairwise (· ≥ ·)) (hpos : 0 < xs.sum) (acc : ℚ) :
    (cumsumFrom acc xs).countP (fun c => decide (c < acc + xs.sum))
      = xs.countP (fun r => decide (0 < r)) - 1 := by
  induction xs generalizing acc with
  | nil => simp at hpos
  | cons x ys ih =>
    obtain ⟨hxy, hys⟩ := List.pairwise_cons.mp hdesc
    have hynn : ∀ r ∈ ys, 0 ≤ r := fun r hr => hnn r (by simp [hr])
    have hx : 0 < x := by
      rcases exists_pos_of_sum_pos (x :: ys) hpos with ⟨y, hy, hy0⟩
      rcases List.mem_cons.mp hy with h | h
      · exact h ▸ hy0
      · exact lt_of_lt_of_le hy0 (hxy y h)
    have hsum : 0 ≤ ys.sum := List.sum_nonneg hynn
    have hxcount : (x :: ys).countP (fun r => decide (0 < r))
        = ys.countP (fun r => decide (0 < r)) + 1 :=
      List.countP_cons_of_pos _ _ (by simpa using hx)
    rcases hsum.lt_or_eq with hpos' | hzero
    · have hassoc : acc + (x :: ys).sum = (acc + x) + ys.sum := by
        simp [List.sum_cons]; ring
      have hhead : decide ((acc + x) < acc + (x :: ys).sum) = true := by
        rw [hassoc]; simp only [decide_eq_true_eq]; linarith
      have hpred : (fun c => decide (c < acc + (x :: ys).sum))
          = (fun c => decide (c < (acc + x) + ys.sum)) := by
        funext c; rw [hassoc]
      rw [cumsumFrom, List.countP_cons, hpred, ih hynn hys hpos' (acc + x)]
      simp only [hhead, if_true]
      have hcount1 : 0 < ys.countP (fun r => decide (0 < r)) := by
        rcases exists_pos_of_sum_pos ys hpos' with ⟨y, hy, hy0⟩
        exact List.countP_pos_iff.mpr ⟨y, hy, by simpa using hy0⟩
      omega
    · have hall : ∀ r ∈ ys, r = 0 := all_zero_of_sum_zero hynn hzero.symm
      have hsumeq : acc + (x :: ys).sum = acc + x := by
        simp [List.sum_cons, ← hzero]
      have hhead : decide ((acc + x) < acc + (x :: ys).sum) = false := by
        rw [hsumeq]; simp
      have htail : (cumsumFrom (acc + x) ys).countP
          (fun c => decide (c < acc + (x :: ys).sum)) = 0 := by
        rw [List.countP_eq_zero]
        intro c hc
        have := le_of_mem_cumsumFrom hynn (acc + x) c hc
        rw [hsumeq]
        simp only [decide_eq_true_eq, not_lt]
        linarith
      have hycount : ys.countP (fun r => decide (0 < r)) = 0 := by
        rw [List.countP_eq_zero]
        intro r hr
        simp [hall r hr]
      rw [cumsumFrom, List.countP_cons, htail, hxcount, hycount]
      simp only [hhead, if_false, Bool.false_eq_true]

lemma mem_cumsumFrom_all_zero {xs : List ℚ} (h : ∀ r ∈ xs, r = 0) (acc : ℚ) :
    ∀ y ∈ cumsumFrom acc xs, y = acc := by
  induction xs generalizing acc with
  | nil => intro y hy; simp [cumsumFrom] at hy
  | cons x xs ih =>
    intro y hy
    have hx : x = 0 := h x (by simp)
    rcases (by simpa [cumsumFrom] using hy : y = acc + x ∨ y ∈ cumsumFrom (acc + x) xs) with
      h' | h'
    · rw [h', hx, add_zero]
    · have := ih (fun r hr => h r (by simp [hr])) (acc + x) y h'
      rw [this, hx, add_zero]

/-- Claim C6, amended.  `choose_components` is monotonically non-decreasing
in the threshold over `[0, 1]`, and the empty ratio array yields 0 at every
threshold.  At threshold exactly 1 it selects all components with nonzero
explained ratio for a normalised (non-increasing, nonnegative, summing to 1)
ratio array; but on the all-zero ratio array that `pca_decompose` emits for
zero total variance, threshold 1 returns the number of entries plus one
rather than the count (0) of components with nonzero variance. -/
theorem claim_C6 :
    (∀ (ratio : List ℚ) (t1 t2 : ℚ), 0 ≤ t1 → t1 ≤ t2 → t2 ≤ 1 →
        choose_components ratio t1 ≤ choose_components ratio t2)
    ∧ (∀ ratio : List ℚ, (∀ r ∈ ratio, 0 ≤ r) → ratio.Pairwise (· ≥ ·) →
        ratio.sum = 1 →
        choose_components ratio 1 = ratio.countP (fun r => decide (r ≠ 0)))
    ∧ (∀ ratio : List ℚ, ratio ≠ [] → (∀ r ∈ ratio, r = 0) →
        choose_components ratio 1 = ratio.length + 1)
    ∧ (∀ t : ℚ, choose_components [] t = 0) := by
  refine ⟨?_, ?_, ?_, fun t => rfl⟩
  · intro ratio t1 t2 _h0 h12 _h2
    by_cases h : ratio.isEmpty
    · simp [choose_components, h]
    · simp only [choose_components, if_neg h, searchsortedLeft]
      have := @List.countP_mono_left ℚ (fun c => decide (c < t1))
        (fun c => decide (c < t2)) (cumsum ratio)
        (fun c _ hc => by
          simp only [decide_eq_true_eq] at hc ⊢
          linarith)
      omega
  · intro ratio hnn hdesc hsum
    have hne : ¬ ratio.isEmpty := by
      rcases ratio with _ | ⟨x, xs⟩
      · simp at hsum
      · simp
    have hpred : (fun c => decide (c < (1 : ℚ)))
        = (fun c => decide (c < (0 : ℚ) + ratio.sum)) := by
      funext c; rw [hsum]; norm_num
    have hpos : (0 : ℚ) < ratio.sum := by rw [hsum]; norm_num
    have hcount1 : 0 < ratio.countP (fun r => decide (0 < r)) := by
      rcases exists_pos_of_sum_pos ratio hpos with ⟨y, hy, hy0⟩
      exact List.countP_pos_iff.mpr ⟨y, hy, by simpa using hy0⟩
    have hcongr : ratio.countP (fun r => decide (0 < r))
        = ratio.countP (fun r => decide (r ≠ 0)) := by
      refine List.countP_congr (fun r hr => ?_)
      simp only [decide_eq_true_eq]
      constructor
      · intro h; exact ne_of_gt h
      · intro h; exact lt_of_le_of_ne (hnn r hr) (Ne.symm h)
    rw [choose_components, if_neg hne, searchsortedLeft, cumsum, hpred,
      countLt_cumsumFrom ratio hnn hdesc hpos 0]
    omega
  · intro ratio hne hzero
    have hneB : ¬ ratio.isEmpty := by simpa [List.isEmpty_iff] using hne
    have hall : (cumsum ratio).countP (fun c => decide (c < 1))
        = (cumsum ratio).length := by
      refine List.countP_eq_length.mpr (fun c hc => ?_)
      have : c = 0 := mem_cumsumFrom_all_zero hzero 0 c hc
      simp [this]
    rw [choose_components, if_neg hneB, searchsortedLeft, hall, cumsum,
      cumsumFrom_length]

/-- Witness for claim C6 at the ratio arrays `[1, 0]` and `[0]` and
thresholds `1/2` and `1`. -/
theorem claim_C6_witness :
    choose_components [(1 : ℚ), 0] (1/2) ≤ choose_components [(1 : ℚ), 0] 1
    ∧ choose_components [(1 : ℚ), 0] 1 = List.countP (fun r => decide (r ≠ 0)) [(1 : ℚ), 0]
    ∧ choose_components [(0 : ℚ)] 1 = ([(0 : ℚ)]).length + 1
    ∧ choose_components ([] : List ℚ) (1/2) = 0 :=
  ⟨claim_C6.1 [(1 : ℚ), 0] (1/2) 1 (by norm_num) (by norm_num) (by norm_num),
   claim_C6.2.1 [(1 : ℚ), 0]
    (by intro r hr; rcases List.mem_cons.mp hr with h | h
        · rw [h]; norm_num
        · simp only [List.mem_singleton] at h; rw [h])
    (by simp [List.pairwise_cons])
    (by norm_num),
   claim_C6.2.2.1 [(0 : ℚ)] (by simp)
    (by intro r hr; simpa using hr),
   claim_C6.2.2.2 (1/2)⟩

/-- Counterexample to claim C6 as stated: on the all-zero explained-ratio
array `[0]` (which `pca_decompose` produces when the total variance is
zero), `choose_components` at threshold exactly 1 returns 2, not the count
(0) of components with nonzero variance. -/
theorem claim_C6_counterexample :
    choose_components [(0 : ℚ)] 1 ≠ List.countP (fun r => decide (r ≠ 0)) [(0 : ℚ)] := by
  norm_num [choose_components, searchsortedLeft, cumsum, cumsumFrom, List.countP,
    List.countP.go]

lemma dedupLast_sublist {γ : Type} (eq : γ → γ → Bool) (l : List γ) :
    (dedupLast eq l).Sublist l := by
  induction l with
  | nil => simp [dedupLast]
  | cons x xs ih =>
    rw [dedupLast]
    by_cases h : xs.any (eq x)
    · rw [if_pos h]
      exact ih.cons x
    · rw [if_neg h]
      exact ih.cons₂ x

lemma dedupLast_pairwise {γ : Type} (eq : γ → γ → Bool) (l : List γ) :
    (dedupLast eq l).Pairwise (fun a b => eq a b = false) := by
  induction l with
  | nil => simp [dedupLast]
  | cons x xs ih =>
    rw [dedupLast]
    by_cases h : xs.any (eq x)
    · rw [if_pos h]; exact ih
    · rw [if_neg h]
      refine List.pairwise_cons.mpr ⟨?_, ih⟩
      intro y hy
      have hymem : y ∈ xs := (dedupLast_sublist eq xs).mem hy
      have := List.any_eq_false.mp (Bool.eq_false_iff.mpr h) y hymem
      exact Bool.eq_false_iff.mpr this

lemma dedupLast_of_pairwise {γ : Type} {eq : γ → γ → Bool} {l : List γ}
    (h : l.Pairwise (fun a b => eq a b = false)) : dedupLast eq l = l := by
  induction l with
  | nil => rfl
  | cons x xs ih =>
    rcases List.pairwise_cons.mp h with ⟨hx, hxs⟩
    have hany : xs.any (eq x) = false :=
      List.any_eq_false.mpr (fun y hy => by simp [hx y hy])
    rw [dedupLast, hany]
    simp [ih hxs]

lemma sortDedupRows_idem {β α : Type} (le eq : β → β → Bool)
    (htrans : ∀ a b c, le a b = true → le b c = true → le a c = true)
    (htotal : ∀ a b, (le a b || le b a) = true) (rows : List (β × α)) :
    sortDedupRows le eq (sortDedupRows le eq rows) = sortDedupRows le eq rows := by
  set le' : β × α → β × α → Bool := fun p q => le p.1 q.1 with hle'
  have htrans' : ∀ a b c : β × α, le' a b = true → le' b c = true → le' a c = true :=
    fun a b c hab hbc => htrans _ _ _ hab hbc
  have htotal' : ∀ a b : β × α, (le' a b || le' b a) = true :=
    fun a b => htotal _ _
  have hsorted : (sortDedupRows le eq rows).Pairwise (fun a b => le' a b = true) := by
    refine List.Pairwise.sublist (dedupLast_sublist _ _) ?_
    exact List.sorted_mergeSort htrans' htotal' rows
  have hdistinct : (sortDedupRows le eq rows).Pairwise
      (fun a b => (fun p q : β × α => eq p.1 q.1) a b = false) :=
    dedupLast_pairwise _ _
  calc sortDedupRows le eq (sortDedupRows le eq rows)
      = dedupLast (fun p q : β × α => eq p.1 q.1)
          ((sortDedupRows le eq rows).mergeSort le') := rfl
    _ = dedupLast (fun p q : β × α => eq p.1 q.1) (sortDedupRows le eq rows) := by
          rw [List.mergeSort_of_sorted hsorted]
    _ = sortDedupRows le eq rows := dedupLast_of_pairwise hdistinct

lemma optLe_decide_trans {β : Type} [LinearOrder β] :
    ∀ a b c : Option β, optLe (fun x y => decide (x ≤ y)) a b = true →
      optLe (fun x y => decide (x ≤ y)) b c = true →
      optLe (fun x y => decide (x ≤ y)) a c = true := by
  intro a b c hab hbc
  match a, b, c with
  | some a, some b, some c =>
    simp only [optLe, decide_eq_true_eq] at hab hbc ⊢
    exact le_trans hab hbc
  | some _, some _, none => rfl
  | some _, none, none => rfl
  | none, none, none => rfl
  | some _, none, some _ => exact absurd hbc (by simp [optLe])
  | none, some _, _ => exact absurd hab (by simp [optLe])
  | none, none, some _ => exact absurd hbc (by simp [optLe])

lemma optLe_decide_total {β : Type} [LinearOrder β] :
    ∀ a b : Option β, (optLe (fun x y => decide (x ≤ y)) a b
      || optLe (fun x y => decide (x ≤ y)) b a) = true := by
  intro a b
  match a, b with
  | some a, some b =>
    simp only [optLe, Bool.or_eq_true, decide_eq_true_eq]
    exact le_total a b
  | some _, none => rfl
  | none, some _ => simp [optLe]
  | none, none => rfl

/-- Claim C7: the composite of timestamp normalisation followed by sort/dedup
is idempotent: applying `ensure_timestamp_datetime` then `sort_dedup` twice
yields the same table as applying the pair once. -/
theorem claim_C7 {α : Type} (parse : String → Option ℚ) (df : TsFrame α) :
    normalizeStep parse (normalizeStep parse df) = normalizeStep parse df := by
  cases df with
  | noTs r => rfl
  | numTs r =>
    simp only [normalizeStep, ensure_timestamp_datetime, sort_dedup]
    rw [sortDedupRows_idem _ _ optLe_decide_trans optLe_decide_total]
  | strTs r =>
    simp only [normalizeStep, ensure_timestamp_datetime, sort_dedup, Option.bind]
    rw [sortDedupRows_idem _ _ optLe_decide_trans optLe_decide_total]
  | dtTs r =>
    simp only [normalizeStep, ensure_timestamp_datetime, sort_dedup]
    rw [sortDedupRows_idem _ _ optLe_decide_trans optLe_decide_total]

lemma getD_le_getD_of_sorted {l : List ℚ} (hs : l.Pairwise (· ≤ ·)) {a b : ℕ}
    (hab : a ≤ b) (hb : b < l.length) : l.getD a 0 ≤ l.getD b 0 := by
  have ha : a < l.length := lt_of_le_of_lt hab hb
  rw [List.getD_eq_getElem l 0 ha, List.getD_eq_getElem l 0 hb]
  rcases lt_or_eq_of_le hab with h | h
  · exact List.pairwise_iff_getElem.mp hs a b ha hb h
  · subst h; exact le_refl _

lemma getD_succ_ge_getD_of_sorted {vals : List ℚ} (hs : vals.Pairwise (· ≤ ·)) (i : ℕ) :
    vals.getD i 0 ≤ vals.getD (i + 1) (vals.getD i 0) := by
  by_cases h : i + 1 < vals.length
  · calc vals.getD i 0 ≤ vals.getD (i + 1) 0 :=
          getD_le_getD_of_sorted hs (Nat.le_succ i) h
      _ = vals.getD (i + 1) (vals.getD i 0) := by
          rw [List.getD_eq_getElem _ _ h, List.getD_eq_getElem _ _ h]
  · rw [List.getD_eq_default _ _ (not_lt.mp h)]

/-- Monotonicity of linear interpolation along a sorted value list. -/
lemma interpAt_mono {vals : List ℚ} (hs : vals.Pairwise (· ≤ ·)) (hne : vals ≠ [])
    {p1 p2 : ℚ} (h0 : 0 ≤ p1) (h12 : p1 ≤ p2) (h2 : p2 ≤ (vals.length : ℚ) - 1) :
    interpAt vals p1 ≤ interpAt vals p2 := by
  have hm : 1 ≤ vals.length := List.length_pos_of_ne_nil hne
  have hf1 : (0 : ℤ) ≤ ⌊p1⌋ := Int.floor_nonneg.mpr h0
  have hf2 : (0 : ℤ) ≤ ⌊p2⌋ := le_trans hf1 (Int.floor_le_floor h12)
  have hf12 : ⌊p1⌋ ≤ ⌊p2⌋ := Int.floor_le_floor h12
  have hf2m : ⌊p2⌋ ≤ (vals.length : ℤ) - 1 := by
    have : ⌊p2⌋ ≤ ⌊((vals.length : ℚ) - 1)⌋ := Int.floor_le_floor h2
    have hcast : ((vals.length : ℚ) - 1) = (((vals.length : ℤ) - 1 : ℤ) : ℚ) := by
      push_cast; ring
    rwa [hcast, Int.floor_intCast] at this
  set i1 : ℕ := (⌊p1⌋).toNat with hi1
  set i2 : ℕ := (⌊p2⌋).toNat with hi2
  have hc1 : ((i1 : ℤ)) = ⌊p1⌋ := Int.toNat_of_nonneg hf1
  have hc2 : ((i2 : ℤ)) = ⌊p2⌋ := Int.toNat_of_nonneg hf2
  have hi12 : i1 ≤ i2 := by omega
  have hi2m : i2 < vals.length := by omega
  have hfr1lo : (⌊p1⌋ : ℚ) ≤ p1 := Int.floor_le p1
  have hfr1hi : p1 < (⌊p1⌋ : ℚ) + 1 := Int.lt_floor_add_one p1
  have hfr2lo : (⌊p2⌋ : ℚ) ≤ p2 := Int.floor_le p2
  rcases Nat.lt_or_ge i1 i2 with hlt | hge
  · -- strictly different brackets
    have hi1m : i1 + 1 < vals.length := by omega
    have hq1 : interpAt vals p1 ≤ vals.getD (i1 + 1) 0 := by
      have hup : vals.getD i1 0 ≤ vals.getD (i1 + 1) (vals.getD i1 0) :=
        getD_succ_ge_getD_of_sorted hs i1
      have hdef : vals.getD (i1 + 1) (vals.getD i1 0) = vals.getD (i1 + 1) 0 := by
        rw [List.getD_eq_getElem _ _ hi1m, List.getD_eq_getElem _ _ hi1m]
      have hfrle : p1 - (⌊p1⌋ : ℚ) ≤ 1 := by linarith
      have := mul_le_mul_of_nonneg_right hfrle (by linarith :
        (0 : ℚ) ≤ vals.getD (i1 + 1) (vals.getD i1 0) - vals.getD i1 0)
      rw [interpAt]
      simp only [← hi1]
      rw [hdef] at this ⊢
      nlinarith [this]
    have hq2 : vals.getD (i1 + 1) 0 ≤ vals.getD i2 0 :=
      getD_le_getD_of_sorted hs (by omega) hi2m
    have hq3 : vals.getD i2 0 ≤ interpAt vals p2 := by
      have hup : vals.getD i2 0 ≤ vals.getD (i2 + 1) (vals.getD i2 0) :=
        getD_succ_ge_getD_of_sorted hs i2
      have hfr : (0 : ℚ) ≤ p2 - (⌊p2⌋ : ℚ) := by linarith
      rw [interpAt]
      simp only [← hi2]
      nlinarith [hfr, hup]
    linarith
  · -- equal brackets
    have heq : i1 = i2 := by omega
    have hfeq : ⌊p1⌋ = ⌊p2⌋ := by omega
    rw [interpAt, interpAt]
    simp only [← hi1, ← hi2, ← heq, ← hfeq]
    have hup : vals.getD i1 0 ≤ vals.getD (i1 + 1) (vals.getD i1 0) :=
      getD_succ_ge_getD_of_sorted hs i1
    nlinarith [hup]

lemma sortedVals_sorted (col : List (Option ℚ)) :
    (sortedVals col).Pairwise (· ≤ ·) := by
  have := @List.sorted_mergeSort ℚ (fun a b : ℚ => decide (a ≤ b))
    (fun a b c hab hbc => by
      simp only [decide_eq_true_eq] at hab hbc ⊢
      exact le_trans hab hbc)
    (fun a b => by
      simp only [Bool.or_eq_true, decide_eq_true_eq]
      exact le_total a b)
    (col.filterMap id)
  exact this.imp (fun h => by simpa using h)

lemma sortedVals_ne_nil {col : List (Option ℚ)} {y : ℚ} (hy : some y ∈ col) :
    sortedVals col ≠ [] := by
  intro h
  have hmem : y ∈ col.filterMap id := List.mem_filterMap.mpr ⟨some y, hy, rfl⟩
  have : y ∈ sortedVals col := by
    rw [sortedVals, List.mem_mergeSort]
    exact hmem
  rw [h] at this
  simp at this

/-- Bounds on clipping: when the lower bound is at most the upper bound, the
clipped value lies between them. -/
lemma clipVal_mem {lo hi : ℚ} (h : lo ≤ hi) (x : ℚ) :
    lo ≤ clipVal (some lo) (some hi) x ∧ clipVal (some lo) (some hi) x ≤ hi := by
  constructor
  · exact le_min (le_max_right x lo) h
  · exact min_le_right _ _

/-- Claim C4: `winsorize` with `limits ≤ 0` is the identity transform; for
`limits` in `(0, 1/2)` the non-numeric columns pass through, each numeric
column is clipped independently of the others, and every resulting value of a
numeric column lies within the closed quantile interval
`[quantile(limits), quantile(1 - limits)]` of that original column (quantiles
over the non-missing values). -/
theorem claim_C4 (df : WTable) (limits : ℚ) :
    (limits ≤ 0 → winsorize df limits = df)
    ∧ (0 < limits → limits < 1/2 →
        (winsorize df limits).other = df.other
        ∧ (winsorize df limits).numeric.length = df.numeric.length
        ∧ ∀ j, j < df.numeric.length →
            (winsorize df limits).numeric.getD j []
              = clipCol (quantile (df.numeric.getD j []) limits)
                  (quantile (df.numeric.getD j []) (1 - limits))
                  (df.numeric.getD j [])
            ∧ ∀ x : ℚ, some x ∈ (winsorize df limits).numeric.getD j [] →
                ∃ lo hi,
                  quantile (df.numeric.getD j []) limits = some lo
                  ∧ quantile (df.numeric.getD j []) (1 - limits) = some hi
                  ∧ lo ≤ x ∧ x ≤ hi) := by
  constructor
  · intro h; simp [winsorize, h]
  · intro h0 hhalf
    have hpos : ¬ limits ≤ 0 := not_le.mpr h0
    constructor
    · simp [winsorize, hpos]
    constructor
    · simp [winsorize, hpos]
    · intro j hj
      have hcol : (winsorize df limits).numeric.getD j []
          = clipCol (quantile (df.numeric.getD j []) limits)
              (quantile (df.numeric.getD j []) (1 - limits))
              (df.numeric.getD j []) := by
        simp only [winsorize, if_neg hpos]
        have hj' : j < (df.numeric.map (fun col =>
            clipCol (quantile col limits) (quantile col (1 - limits)) col)).length := by
          simpa using hj
        rw [List.getD_eq_getElem _ _ hj', List.getElem_map,
          ← List.getD_eq_getElem df.numeric [] hj]
      refine ⟨hcol, ?_⟩
      intro x hx
      rw [hcol] at hx
      rcases List.mem_map.mp hx with ⟨a, ha, hax⟩
      match a, hax with
      | some y, hax =>
        have hyx : clipVal (quantile (df.numeric.getD j []) limits)
            (quantile (df.numeric.getD j []) (1 - limits)) y = x := by
          simpa using hax
        have hne : sortedVals (df.numeric.getD j []) ≠ [] := sortedVals_ne_nil ha
        have hnE : (sortedVals (df.numeric.getD j [])).isEmpty = false :=
          List.isEmpty_eq_false.mpr hne
        set vals := sortedVals (df.numeric.getD j []) with hvals
        have hm : 1 ≤ vals.length := List.length_pos_of_ne_nil hne
        have hm1 : (0 : ℚ) ≤ (vals.length : ℚ) - 1 := by
          have : (1 : ℚ) ≤ (vals.length : ℚ) := by exact_mod_cast hm
          linarith
        have hsorted : vals.Pairwise (· ≤ ·) := sortedVals_sorted _
        have hq1 : quantile (df.numeric.getD j []) limits
            = some (interpAt vals (limits * ((vals.length : ℚ) - 1))) := by
          rw [quantile, ← hvals, hnE]
          simp
        have hq2 : quantile (df.numeric.getD j []) (1 - limits)
            = some (interpAt vals ((1 - limits) * ((vals.length : ℚ) - 1))) := by
          rw [quantile, ← hvals, hnE]
          simp
        have hlohi : interpAt vals (limits * ((vals.length : ℚ) - 1))
            ≤ interpAt vals ((1 - limits) * ((vals.length : ℚ) - 1)) := by
          refine interpAt_mono hsorted hne ?_ ?_ ?_
          · positivity
          · have : limits ≤ 1 - limits := by linarith
            exact mul_le_mul_of_nonneg_right this hm1
          · nlinarith
        refine ⟨_, _, hq1, hq2, ?_⟩
        rw [← hyx, hq1, hq2]
        exact clipVal_mem hlohi y

/-- Witness for claim C4 on a concrete one-column table and `limits = 1/4`. -/
theorem claim_C4_witness :
    (winsorize ⟨[[some (0 : ℚ), some 1, some 2, some 3]], []⟩ (1/4)).other = [] :=
  ((claim_C4 ⟨[[some (0 : ℚ), some 1, some 2, some 3]], []⟩ (1/4)).2
    (by norm_num) (by norm_num)).1

lemma zipWith_mul_self (l : List ℚ) :
    l.zipWith (fun a b => a * b) l = l.map (fun d => d * d) := by
  induction l with
  | nil => rfl
  | cons x xs ih => simp [ih]

lemma sqDev_nonneg (xs : List ℚ) : 0 ≤ sqDev xs := by
  refine List.sum_nonneg ?_
  intro x hx
  rcases List.mem_map.mp hx with ⟨d, _, rfl⟩
  exact mul_self_nonneg d

lemma covDev_self (xs : List ℚ) : covDev xs xs = sqDev xs := by
  rw [covDev, sqDev, zipWith_mul_self]

lemma pairObs_self (xs : List (Option ℚ)) :
    pairObs xs xs = (xs.filterMap id).map (fun a => (a, a)) := by
  induction xs with
  | nil => rfl
  | cons x xs ih =>
    cases x with
    | none => simpa [pairObs, pairJoin] using ih
    | some a => simpa [pairObs, pairJoin] using ih

lemma pairObs_swap (xs ys : List (Option ℚ)) :
    pairObs ys xs = (pairObs xs ys).map (fun p => (p.2, p.1)) := by
  induction xs generalizing ys with
  | nil => cases ys <;> rfl
  | cons x xs ih =>
    cases ys with
    | nil => rfl
    | cons y ys =>
      cases x <;> cases y <;> simpa [pairObs, pairJoin] using ih ys

lemma pearson_self {xs : List (Option ℚ)} (h : sqDev (xs.filterMap id) ≠ 0) :
    pearson xs xs = some 1 := by
  have ha : (pairObs xs xs).map Prod.fst = xs.filterMap id := by
    rw [pairObs_self, List.map_map]
    exact List.map_id _
  have hb : (pairObs xs xs).map Prod.snd = xs.filterMap id := by
    rw [pairObs_self, List.map_map]
    exact List.map_id _
  simp only [pearson, ha, hb]
  rw [if_neg (by tauto)]
  have hnn : (0 : ℝ) ≤ ((sqDev (xs.filterMap id) : ℚ) : ℝ) := by
    exact_mod_cast sqDev_nonneg _
  rw [covDev_self, Real.sqrt_mul_self hnn, div_self (by exact_mod_cast h)]

lemma pearson_comm (xs ys : List (Option ℚ)) : pearson xs ys = pearson ys xs := by
  have ha : (pairObs ys xs).map Prod.fst = (pairObs xs ys).map Prod.snd := by
    rw [pairObs_swap, List.map_map]
    rfl
  have hb : (pairObs ys xs).map Prod.snd = (pairObs xs ys).map Prod.fst := by
    rw [pairObs_swap, List.map_map]
    rfl
  simp only [pearson, ha, hb]
  set a := (pairObs xs ys).map Prod.fst with hsa
  set b := (pairObs xs ys).map Prod.snd with hsb
  have hcov : covDev a b = covDev b a := by
    rw [covDev, covDev, List.zipWith_comm_of_comm _ mul_comm]
  by_cases h : sqDev a = 0 ∨ sqDev b = 0
  · rw [if_pos h, if_pos (Or.symm h)]
  · rw [if_neg h, if_neg (fun hc => h (Or.symm hc)), hcov,
      mul_comm ((sqDev a : ℝ)) ((sqDev b : ℝ))]

/-- Closed form of the override loop: after processing every invalid column,
an entry is 1 on the diagonal of an invalid column, 0 anywhere else in an
invalid row or column, and untouched otherwise. -/
lemma applyOverrides_spec (invalid : List ℕ) (f : ℕ → ℕ → Option ℝ) (i j : ℕ) :
    applyOverrides invalid f i j =
      if i = j ∧ i ∈ invalid then some 1
      else if i ∈ invalid ∨ j ∈ invalid then some 0
      else f i j := by
  induction invalid generalizing f with
  | nil => simp [applyOverrides]
  | cons c rest ih =>
    have hstep : applyOverrides (c :: rest) f = applyOverrides rest (overrideOne c f) := rfl
    rw [hstep, ih (overrideOne c f)]
    by_cases hij : i = j
    · subst hij
      by_cases hic : i = c
      · subst hic
        by_cases hir : i ∈ rest <;> simp [hir, overrideOne]
      · by_cases hir : i ∈ rest <;> simp [hir, overrideOne, hic]
    · have hfirst : ¬ (i = j ∧ i ∈ rest) := fun h => hij h.1
      have hfirst' : ¬ (i = j ∧ i ∈ c :: rest) := fun h => hij h.1
      rw [if_neg hfirst, if_neg hfirst']
      by_cases hir : i ∈ rest
      · simp [hir]
      · by_cases hjr : j ∈ rest
        · simp [hjr]
        · rw [if_neg (by tauto)]
          by_cases hic : i = c
          · subst hic
            rw [if_pos (Or.inl (List.mem_cons_self _ _)), overrideOne,
              if_neg (by tauto), if_pos (Or.inl rfl)]
          · by_cases hjc : j = c
            · subst hjc
              rw [if_pos (Or.inr (List.mem_cons_self _ _)), overrideOne,
                if_neg (by tauto), if_pos (Or.inr rfl)]
            · rw [if_neg (by simp [List.mem_cons]; tauto), overrideOne,
                if_neg (by tauto), if_neg (by tauto)]

/-- Claim C3: for every table with at least one numeric column, the matrix
returned by `correlation_matrix` is symmetric, every diagonal entry inside
its size is `1.0`, and for every column with zero or undefined (`NaN`)
standard deviation over its non-missing entries the whole row and column are
`0.0` off the diagonal. -/
theorem claim_C3 (df : PDF) (hne : df.numeric ≠ []) :
    (∀ i j, i < (correlation_matrix df).1 → j < (correlation_matrix df).1 →
        (correlation_matrix df).2 i j = (correlation_matrix df).2 j i)
    ∧ (∀ i, i < (correlation_matrix df).1 → (correlation_matrix df).2 i i = some 1)
    ∧ (∀ c, c < (correlation_matrix df).1 →
        invalidCol ((df.numeric.map Prod.snd).getD c []) = true →
        ∀ j, j < (correlation_matrix df).1 → j ≠ c →
          (correlation_matrix df).2 c j = some 0
          ∧ (correlation_matrix df).2 j c = some 0) := by
  by_cases hemp : df.isEmpty
  · have hsz : (correlation_matrix df).1 = 0 := by
      rw [correlation_matrix, if_pos hemp]
    exact ⟨fun i j hi => absurd hi (by omega),
      fun i hi => absurd hi (by omega),
      fun c hc => absurd hc (by omega)⟩
  · have hnumE : ¬ df.numeric.isEmpty := by
      simpa [List.isEmpty_iff] using hne
    have hcm : correlation_matrix df
        = ((df.numeric.map Prod.snd).length,
           applyOverrides
             ((List.range (df.numeric.map Prod.snd).length).filter
               (fun i => invalidCol ((df.numeric.map Prod.snd).getD i [])))
             (rawCorr (df.numeric.map Prod.snd))) := by
      rw [correlation_matrix, if_neg hemp, if_neg hnumE]
    set cols := df.numeric.map Prod.snd with hcols
    set inv := (List.range cols.length).filter
      (fun i => invalidCol (cols.getD i [])) with hinv
    have hmem : ∀ a, a ∈ inv ↔ a < cols.length
        ∧ invalidCol (cols.getD a []) = true := by
      intro a
      rw [hinv, List.mem_filter, List.mem_range]
    rw [hcm]
    refine ⟨?_, ?_, ?_⟩
    · intro i j hi hj
      simp only at hi hj ⊢
      rw [applyOverrides_spec, applyOverrides_spec]
      by_cases hij : i = j
      · subst hij; rfl
      · rw [if_neg (show ¬ (i = j ∧ i ∈ inv) from fun h => hij h.1),
          if_neg (show ¬ (j = i ∧ j ∈ inv) from fun h => hij h.1.symm)]
        by_cases hor : i ∈ inv ∨ j ∈ inv
        · rw [if_pos hor, if_pos (Or.symm hor)]
        · rw [if_neg hor, if_neg (fun h => hor (Or.symm h))]
          exact pearson_comm _ _
    · intro i hi
      simp only at hi ⊢
      rw [applyOverrides_spec]
      by_cases hmemi : i ∈ inv
      · rw [if_pos ⟨rfl, hmemi⟩]
      · rw [if_neg (fun h => hmemi h.2), if_neg (by tauto)]
        have hvalid : invalidCol (cols.getD i []) = false := by
          cases hb : invalidCol (cols.getD i []) with
          | false => rfl
          | true => exact absurd ((hmem i).mpr ⟨hi, hb⟩) hmemi
        have hsq : sqDev ((cols.getD i []).filterMap id) ≠ 0 := by
          intro h0
          rw [invalidCol, h0] at hvalid
          simp at hvalid
        rw [rawCorr]
        exact pearson_self hsq
    · intro c hc hcinv j hj hjc
      simp only at hc hj ⊢
      have hcmem : c ∈ inv := (hmem c).mpr ⟨hc, hcinv⟩
      constructor
      · rw [applyOverrides_spec, if_neg (fun h => hjc h.1.symm), if_pos (Or.inl hcmem)]
      · rw [applyOverrides_spec, if_neg (fun h => hjc h.1), if_pos (Or.inr hcmem)]

/-- Witness for claim C3 on a concrete two-row table with one numeric
column. -/
theorem claim_C3_witness :
    (correlation_matrix ⟨2, [("a", [some (0 : ℚ), some 1])], []⟩).2 0 0 = some 1 := by
  have hsz : (correlation_matrix ⟨2, [("a", [some (0 : ℚ), some 1])], []⟩).1 = 1 := by
    rw [correlation_matrix, if_neg (by simp [PDF.isEmpty]), if_neg (by simp)]
    simp
  exact (claim_C3 ⟨2, [("a", [some (0 : ℚ), some 1])], []⟩ (by simp)).2.1 0 (by omega)

/-- Claim C5, amended.  `correlation_matrix` returns the empty matrix both
when the table has no rows and when it has no numeric columns, without
raising; `vif_scores` returns the empty table when the `DataFrame` is empty
(no rows, or no columns at all), but on a table that has rows and only
non-numeric columns it raises a length-mismatch `ValueError` (the `feature`
array holds every column name while the `vif` array is empty) instead of
returning an empty result. -/
theorem claim_C5 :
    (∀ df : PDF, df.nrows = 0 ∨ df.numeric = [] → (correlation_matrix df).1 = 0)
    ∧ (∀ (pinv : List (List ℝ) → List (List ℝ)) (df : PDF),
        df.isEmpty = true → vif_scores pinv df = .ok [])
    ∧ (∀ (pinv : List (List ℝ) → List (List ℝ)) (df : PDF),
        (∀ a, (pinv a).length = a.length) →
        df.isEmpty = false → df.numeric = [] →
        vif_scores pinv df = .error "All arrays must be of the same length") := by
  refine ⟨?_, ?_, ?_⟩
  · intro df h
    by_cases hemp : df.isEmpty
    · rw [correlation_matrix, if_pos hemp]
    · have hnum : df.numeric = [] := by
        rcases h with h | h
        · exfalso
          apply hemp
          rw [PDF.isEmpty, h]
          simp
        · exact h
      rw [correlation_matrix, if_neg hemp, if_pos (by simp [hnum])]
  · intro pinv df h
    rw [vif_scores, if_pos h]
  · intro pinv df hlen hemp hnum
    rw [vif_scores, if_neg (by simp [hemp])]
    have hcorr : corrFilled (df.numeric.map Prod.snd) = [] := by
      rw [hnum]
      rfl
    have hpinv : pinv (corrFilled (df.numeric.map Prod.snd)) = [] := by
      rw [hcorr]
      exact List.length_eq_zero.mp (by simpa using hlen [])
    have hvifs : diagOf (pinv (corrFilled (df.numeric.map Prod.snd))) = [] := by
      rw [hpinv]; rfl
    have hfeat : (df.numeric.map Prod.fst ++ df.nonNumeric).length
        = df.nonNumeric.length := by
      rw [hnum]; simp
    have hnonzero : df.nonNumeric.length ≠ 0 := by
      intro h0
      rw [PDF.isEmpty, hnum, h0] at hemp
      simp at hemp
    rw [if_neg]
    rw [hvifs, hfeat]
    simpa using hnonzero

/-- Witness for claim C5 on concrete empty and rows-only-string tables. -/
theorem claim_C5_witness :
    (correlation_matrix ⟨0, [("a", [])], ["t"]⟩).1 = 0
    ∧ vif_scores (fun a => a) ⟨0, [], []⟩ = .ok []
    ∧ vif_scores (fun a => a) ⟨1, [], ["ticker", "caller"]⟩
        = .error "All arrays must be of the same length" :=
  ⟨claim_C5.1 ⟨0, [("a", [])], ["t"]⟩ (Or.inl rfl),
   claim_C5.2.1 (fun a => a) ⟨0, [], []⟩ rfl,
   claim_C5.2.2 (fun a => a) ⟨1, [], ["ticker", "caller"]⟩ (fun a => rfl) rfl rfl⟩

/-- Counterexample to claim C5 as stated: on a table with one row and a
single non-numeric column, `vif_scores` does not return an empty result: the
`pd.DataFrame({"feature": df.columns, "vif": vifs})` construction raises a
length-mismatch `ValueError` (`np.linalg.pinv` on the empty correlation
matrix is the empty matrix, modelled here by the identity function). -/
theorem claim_C5_counterexample :
    vif_scores (fun a => a) ⟨1, [], ["ticker"]⟩
      = .error "All arrays must be of the same length" := by
  rw [vif_scores, if_neg (by simp [PDF.isEmpty])]
  rw [if_neg (by simp [corrFilled, diagOf])]

end EthAgent
